import Mathlib

/-!
Verification of the WHOIS data parser (`src/parser.py`).

The first part of this file is a shallow embedding of `parse_whois_json`
and its helpers into Lean.  Python `None` plays a double role in the
source: it is both the decoded JSON `null` and the "absent" result of the
recursive key search (`return None` / `is not None` checks), so the
embedding uses a single `Value.null` constructor for both, exactly as the
dynamic code does.  Python truthiness (`if raw_nameservers:`,
`x or y`, `if not item:`) is modelled by `truthy`.  String operations
(`re.split(r'[,\s\n]+', s)`, `.lower()`, `.strip()`, `", ".join`) are
modelled character by character over the ASCII characters the regex and
the whitespace-stripping rules mention.

The second part contains definitions that transcribe the specification's
wording (they are clearly marked), and the theorems that settle the
claims against the embedded code.
-/

/-- Tree Value of §3 of the spec: one decoded JSON document.  `map` keeps
the dict's insertion order, as Python dicts do. -/
inductive Value where
| null : Value
| str : String → Value
| list : List Value → Value
| map : List (String × Value) → Value

mutual
def decEqValue : (a b : Value) → Decidable (a = b)
  | .null, .null => isTrue rfl
  | .null, .str _ => isFalse (fun h => Value.noConfusion h)
  | .null, .list _ => isFalse (fun h => Value.noConfusion h)
  | .null, .map _ => isFalse (fun h => Value.noConfusion h)
  | .str _, .null => isFalse (fun h => Value.noConfusion h)
  | .str a, .str b =>
    if h : a = b then isTrue (by rw [h]) else
      isFalse (by intro hc; injection hc; contradiction)
  | .str _, .list _ => isFalse (fun h => Value.noConfusion h)
  | .str _, .map _ => isFalse (fun h => Value.noConfusion h)
  | .list _, .null => isFalse (fun h => Value.noConfusion h)
  | .list _, .str _ => isFalse (fun h => Value.noConfusion h)
  | .list a, .list b =>
    match decEqValueList a b with
    | isTrue h => isTrue (by rw [h])
    | isFalse h => isFalse (by intro hc; injection hc; contradiction)
  | .list _, .map _ => isFalse (fun h => Value.noConfusion h)
  | .map _, .null => isFalse (fun h => Value.noConfusion h)
  | .map _, .str _ => isFalse (fun h => Value.noConfusion h)
  | .map _, .list _ => isFalse (fun h => Value.noConfusion h)
  | .map a, .map b =>
    match decEqValueEntries a b with
    | isTrue h => isTrue (by rw [h])
    | isFalse h => isFalse (by intro hc; injection hc; contradiction)
def decEqValueList : (a b : List Value) → Decidable (a = b)
  | [], [] => isTrue rfl
  | [], _ :: _ => isFalse (fun h => List.noConfusion h)
  | _ :: _, [] => isFalse (fun h => List.noConfusion h)
  | x :: xs, y :: ys =>
    match decEqValue x y with
    | isTrue h1 =>
      match decEqValueList xs ys with
      | isTrue h2 => isTrue (by rw [h1, h2])
      | isFalse h2 => isFalse (by intro hc; injection hc; contradiction)
    | isFalse h1 => isFalse (by intro hc; injection hc; contradiction)
def decEqValueEntries : (a b : List (String × Value)) → Decidable (a = b)
  | [], [] => isTrue rfl
  | [], _ :: _ => isFalse (fun h => List.noConfusion h)
  | _ :: _, [] => isFalse (fun h => List.noConfusion h)
  | (k1, v1) :: xs, (k2, v2) :: ys =>
    if hk : k1 = k2 then
      match decEqValue v1 v2 with
      | isTrue h1 =>
        match decEqValueEntries xs ys with
        | isTrue h2 => isTrue (by rw [hk, h1, h2])
        | isFalse h2 => isFalse (by intro hc; injection hc; contradiction)
      | isFalse h1 =>
        isFalse (by
          intro hc
          injection hc with hp hrest
          injection hp
          contradiction)
    else
      isFalse (by
        intro hc
        injection hc with hp hrest
        injection hp
        contradiction)
end

instance : DecidableEq Value := decEqValue

/-- Python `v is None`.  In the source, `None` is simultaneously the JSON
null and the "not found" marker. -/
def isNull : Value → Bool
  | .null => true
  | _ => false

/-- Python truthiness of the JSON shapes the parser handles: `None`, `""`,
`[]` and `{}` are falsy, everything else is truthy. -/
def truthy : Value → Bool
  | .null => false
  | .str s => !(s == "")
  | .list l => !l.isEmpty
  | .map m => !m.isEmpty

/-- Python `target_key in data` followed by `data[target_key]` (and
`data.get(key)` when the result is fed to a truthiness test): the value
stored under the first matching key of the dict, if any. -/
def lookupKey : List (String × Value) → String → Option Value
  | [], _ => none
  | (k', v) :: rest, k => if k' = k then some v else lookupKey rest k

mutual
/-- Embedding of `_find_key_recursively` (src/parser.py lines 34-47).
A direct dict hit returns the stored value at once, even when that value
is `null` (Python returns `data[target_key]` which may be `None`);
otherwise dict values, then list items, are searched in order, and a
`null` recursive result makes the loop move on (`if result is not None`).
`Value.null` is the function's Python `None` return. -/
def find_key_recursively : Value → String → Value
  | .null, _ => .null
  | .str _, _ => .null
  | .map m, k =>
    match lookupKey m k with
    | some v => v
    | none => findInEntries m k
  | .list l, k => findInItems l k
/-- The `for value in data.values()` loop of `_find_key_recursively`. -/
def findInEntries : List (String × Value) → String → Value
  | [], _ => .null
  | (_, v) :: rest, k =>
    let r := find_key_recursively v k
    if isNull r then findInEntries rest k else r
/-- The `for item in data` loop of `_find_key_recursively`. -/
def findInItems : List Value → String → Value
  | [], _ => .null
  | v :: rest, k =>
    let r := find_key_recursively v k
    if isNull r then findInItems rest k else r
end

/-- Embedding of `_get_value` (src/parser.py lines 50-55): try each alias
in order with `_find_key_recursively`, return the first result that
`is not None`, else `None`. -/
def get_value (tree : Value) : List String → Value
  | [] => .null
  | k :: ks =>
    let v := find_key_recursively tree k
    if isNull v then get_value tree ks else v

/-- ASCII characters matched by Python `\s` (space, tab, newline,
carriage return, vertical tab, form feed); these are also the characters
`str.strip()` removes. -/
def isSpaceChar (c : Char) : Bool :=
  c.toNat = 32 || c.toNat = 9 || c.toNat = 10 || c.toNat = 13 || c.toNat = 11 || c.toNat = 12

/-- Characters matched by the regex class `[,\s\n]` of
`re.split(r'[,\s\n]+', ...)` in src/parser.py line 95. -/
def isDelimChar (c : Char) : Bool :=
  c.toNat = 44 || isSpaceChar c

/-- ASCII case folding of one character, as `str.lower()` acts on the
ASCII range. -/
def lowerChar (c : Char) : Char :=
  if 65 ≤ c.toNat ∧ c.toNat ≤ 90 then Char.ofNat (c.toNat + 32) else c

/-- Python `s.lower()` on the character list of a string. -/
def pyLower (s : String) : String := String.mk (s.data.map lowerChar)

/-- Drop whitespace from both ends of a character list. -/
def stripData (l : List Char) : List Char :=
  ((l.dropWhile isSpaceChar).reverse.dropWhile isSpaceChar).reverse

/-- Python `s.strip()`. -/
def pyStrip (s : String) : String := String.mk (stripData s.data)

/-- The `item.lower().strip()` normalisation of src/parser.py lines
109 and 114: lowercase first, then strip surrounding whitespace. -/
def lower_strip (s : String) : String := pyStrip (pyLower s)

mutual
/-- Tokeniser for `re.split(r'[,\s\n]+', s)`: accumulate the current
token until a delimiter starts a run; `acc` holds the token read so far,
reversed. -/
def splitTokenAux : List Char → List Char → List String
  | [], acc => [String.mk acc.reverse]
  | c :: cs, acc =>
    if isDelimChar c then String.mk acc.reverse :: splitRunAux cs
    else splitTokenAux cs (c :: acc)
/-- Skip the rest of a maximal delimiter run, then start the next token.
An exhausted input here means the string ended inside a run, which
`re.split` reports as a final empty token. -/
def splitRunAux : List Char → List String
  | [] => [""]
  | c :: cs =>
    if isDelimChar c then splitRunAux cs
    else splitTokenAux cs [c]
end

/-- Embedding of `re.split(r'[,\s\n]+', s)` (src/parser.py line 95):
split on maximal runs of commas and whitespace, keeping the empty tokens
that a leading or trailing run (or an empty input) produces. -/
def pySplit (s : String) : List String := splitTokenAux s.data []

/-- Python `", ".join(l)`. -/
def join_comma : List String → String
  | [] => ""
  | [x] => x
  | x :: y :: rest => x ++ ", " ++ join_comma (y :: rest)

/-- Embedding of the registrant normalisation (src/parser.py lines
70-78): for a dict, `registrant_info.get("name") or
registrant_info.get("organization")` — the `or` falls through on a falsy
`name` and then yields the raw `organization` value whatever it is; a
plain string is used directly; any other shape leaves `registrant_name`
as `None`. -/
def registrant_from (info : Value) : Value :=
  match info with
  | .map m =>
    let n := (lookupKey m "name").getD .null
    if truthy n then n else (lookupKey m "organization").getD .null
  | .str s => .str s
  | _ => .null

/-- Embedding of the `items_to_process` worklist construction
(src/parser.py lines 92-102): a string is split on the delimiter regex, a
list is taken as is, and a dict contributes `raw.get("hostNames")` only
when that value is truthy and a list. -/
def items_to_process (raw : Value) : List Value :=
  match raw with
  | .str s => (pySplit s).map Value.str
  | .list l => l
  | .map m =>
    let hostnames := (lookupKey m "hostNames").getD .null
    if truthy hostnames then
      match hostnames with
      | .list l => l
      | _ => []
    else []
  | .null => []

/-- Embedding of the per-item processing (src/parser.py lines 105-114):
falsy items are skipped (`if not item: continue`); a string item is
lowercased and stripped; a dict item contributes
`item.get("name") or item.get("hostname")` when that is a truthy string;
anything else is skipped. -/
def clean_item (item : Value) : Option String :=
  if truthy item then
    match item with
    | .str s => some (lower_strip s)
    | .map m =>
      let n :=
        if truthy ((lookupKey m "name").getD .null) then (lookupKey m "name").getD .null
        else (lookupKey m "hostname").getD .null
      match n with
      | .str s => if s = "" then none else some (lower_strip s)
      | _ => none
    | _ => none
  else none

/-- The `nameserver_list` accumulation loop of src/parser.py lines
104-114. -/
def nameserver_list (items : List Value) : List String :=
  items.filterMap clean_item

/-- Embedding of the dedup comprehension (src/parser.py line 119):
`[x for x in nameserver_list if x and not (x in seen or seen.add(x))]`
keeps the first occurrence of each non-empty string. -/
def dedup_aux : List String → List String → List String
  | [], _ => []
  | x :: xs, seen =>
    if x ≠ "" ∧ x ∉ seen then x :: dedup_aux xs (x :: seen)
    else dedup_aux xs seen

def unique_ns (l : List String) : List String := dedup_aux l []

/-- Embedding of the whole nameserver normalisation (src/parser.py lines
89-122): the worklist is built only when the resolved value is truthy,
and the `", "`-joined dedup result is stored only when the list built
BEFORE deduplication is non-empty (`if nameserver_list:`), else the field
is `None`. -/
def normalize_nameservers (raw : Value) : Value :=
  let nsList := if truthy raw then nameserver_list (items_to_process raw) else []
  if nsList.isEmpty then Value.null
  else .str (join_comma (unique_ns nsList))

/-- The deduplicated hostname list the normaliser would join: the "set of
hostnames" a resolved nameserver value yields. -/
def hostnames_of (raw : Value) : List String :=
  unique_ns (if truthy raw then nameserver_list (items_to_process raw) else [])

/-- The `parsed_data` dict literal of src/parser.py lines 20-31: ten keys
in insertion order, all mapped to `None`. -/
def initData : List (String × Value) :=
  [("createdDate", .null), ("updatedDate", .null), ("expiresDate", .null),
   ("registrarName", .null), ("whoisServer", .null), ("registrant", .null),
   ("country", .null), ("countryCode", .null), ("registrarIANAID", .null),
   ("nameservers", .null)]

/-- Python `d[k] = v` on an insertion-ordered dict: overwrite in place
when the key exists, append otherwise. -/
def setKey : List (String × Value) → String → Value → List (String × Value)
  | [], k, v => [(k, v)]
  | (k', v') :: rest, k, v =>
    if k' = k then (k, v) :: rest else (k', v') :: setKey rest k v

/-- Embedding of `parse_whois_json` (src/parser.py lines 5-124), with the
field assignments in source order. -/
def parse_whois_json (whois_data : Value) : List (String × Value) :=
  let p := initData
  let p := setKey p "createdDate"
    (get_value whois_data ["creation_date", "creationDate", "created_date", "created"])
  let p := setKey p "updatedDate"
    (get_value whois_data ["updated_date", "updatedDate", "last_updated", "updated"])
  let p := setKey p "expiresDate"
    (get_value whois_data
      ["expiration_date", "expirationDate", "expires_date", "expires", "expiry_date"])
  let p := setKey p "registrarName"
    (get_value whois_data ["registrar", "registrar_name", "registrarName"])
  let p := setKey p "whoisServer" (get_value whois_data ["whois_server", "whoisServer"])
  let p := setKey p "registrarIANAID"
    (get_value whois_data ["registrar_iana_id", "registrarIANAID", "ianaid"])
  let registrant_info := get_value whois_data ["registrant", "registrant_name", "registrantName"]
  let p := setKey p "registrant" (registrant_from registrant_info)
  let p := setKey p "country" (get_value whois_data ["registrant_country", "country"])
  let p := setKey p "countryCode"
    (get_value whois_data ["registrant_country_code", "country_code", "countryCode"])
  let raw_nameservers :=
    get_value whois_data ["name_servers", "nameservers", "nserver", "nameServers", "nameserver_info"]
  let p := setKey p "nameservers" (normalize_nameservers raw_nameservers)
  p

/-- First value of a list that is not `null`, else `null` — the shape of
every "first non-absent result wins" loop in the source. -/
def firstNonNull : List Value → Value
  | [] => .null
  | v :: vs => if isNull v then firstNonNull vs else v

mutual
/-- The candidate sequence `_find_key_recursively` draws from, in the
order the code visits it: at a dict, a direct binding of the key replaces
the whole subtree's candidates (even a `null` one, pruning everything
below); otherwise dict values and list items contribute in order. -/
def occs : Value → String → List Value
  | .null, _ => []
  | .str _, _ => []
  | .map m, k =>
    match lookupKey m k with
    | some v => [v]
    | none => occsEntries m k
  | .list l, k => occsItems l k
def occsEntries : List (String × Value) → String → List Value
  | [], _ => []
  | (_, v) :: rest, k => occs v k ++ occsEntries rest k
def occsItems : List Value → String → List Value
  | [], _ => []
  | v :: rest, k => occs v k ++ occsItems rest k
end

mutual
/-- Transcribed from the claim's words (claim C1): the value of the first
occurrence of the key in a pre-order, depth-first, insertion-order
traversal, where each binding is visited before the contents of its
value, and `none` when the key occurs nowhere. -/
def spec_first_occurrence : Value → String → Option Value
  | .map m, k => specFirstInEntries m k
  | .list l, k => specFirstInItems l k
  | _, _ => none
def specFirstInEntries : List (String × Value) → String → Option Value
  | [], _ => none
  | (k', v) :: rest, k =>
    if k' = k then some v
    else
      match spec_first_occurrence v k with
      | some r => some r
      | none => specFirstInEntries rest k
def specFirstInItems : List Value → String → Option Value
  | [], _ => none
  | v :: rest, k =>
    match spec_first_occurrence v k with
    | some r => some r
    | none => specFirstInItems rest k
end

mutual
/-- Does the key occur as a dict key anywhere in the tree? -/
def keyOccurs : String → Value → Bool
  | k, .map m => keyOccursInEntries k m
  | k, .list l => keyOccursInItems k l
  | _, _ => false
def keyOccursInEntries : String → List (String × Value) → Bool
  | _, [] => false
  | k, (k', v) :: rest => (k' == k) || keyOccurs k v || keyOccursInEntries k rest
def keyOccursInItems : String → List Value → Bool
  | _, [] => false
  | k, v :: rest => keyOccurs k v || keyOccursInItems k rest
end

/-- Transcribed from the claim's words (claim C4): the worklist of
nameserver candidates — a string splits on runs of comma, whitespace or
newline; a list contributes its elements in order; a dict contributes the
elements of its direct `hostNames` key only when that value is a list;
any other shape yields an empty worklist. -/
def claim_worklist (raw : Value) : List Value :=
  match raw with
  | .str s => (pySplit s).map Value.str
  | .list l => l
  | .map m =>
    match lookupKey m "hostNames" with
    | some (.list l) => l
    | _ => []
  | .null => []

/-- Transcribed from the claim's words (claim C4): lowercase and trim
each string candidate, and the name-or-hostname string of each dict
candidate; other candidates contribute nothing. -/
def claim_clean (item : Value) : Option String :=
  match item with
  | .str s => some (lower_strip s)
  | .map m =>
    let n :=
      if truthy ((lookupKey m "name").getD .null) then (lookupKey m "name").getD .null
      else (lookupKey m "hostname").getD .null
    match n with
    | .str s => if s = "" then none else some (lower_strip s)
    | _ => none
  | _ => none

/-- Plain stable deduplication, exactly as the claim words it: remove
duplicates preserving first-occurrence order, nothing else. -/
def dedup_plain : List String → List String → List String
  | [], _ => []
  | x :: xs, seen =>
    if x ∈ seen then dedup_plain xs seen
    else x :: dedup_plain xs (x :: seen)

/-- Transcribed from the claim's words (claim C4): clean the worklist,
deduplicate it, and the field is absent exactly when the resulting
(deduplicated) list is empty, else the `", "`-join of it. -/
def claim_ns (raw : Value) : Value :=
  let cleaned := (claim_worklist raw).filterMap claim_clean
  let deduped := dedup_plain cleaned []
  if deduped.isEmpty then Value.null else .str (join_comma deduped)

/-- The claim C4 cleaning step as amended: candidates that are empty
strings are skipped, mirroring the source's `if not item: continue`. -/
def amended_clean (item : Value) : Option String :=
  match item with
  | .str s => if s = "" then none else some (lower_strip s)
  | .map m =>
    let n :=
      if truthy ((lookupKey m "name").getD .null) then (lookupKey m "name").getD .null
      else (lookupKey m "hostname").getD .null
    match n with
    | .str s => if s = "" then none else some (lower_strip s)
    | _ => none
  | _ => none

/-- The claim C4 normaliser as amended: empty-string candidates are
skipped, deduplication also drops empty strings, and the absence test
looks at the list built before deduplication — a non-empty list whose
entries all disappear in deduplication yields the empty string, not an
absent field. -/
def amended_ns (raw : Value) : Value :=
  let cleaned := (claim_worklist raw).filterMap amended_clean
  if cleaned.isEmpty then Value.null
  else .str (join_comma (unique_ns cleaned))

/-- Transcribed from the claim's words (claim C5): for a dict, the result
is the `name` value, falling back to `organization` when `name` is falsy
or absent, using whichever is present and non-empty, and absent when
neither key yields a usable (truthy) value; a string is used directly;
any other shape is absent. -/
def claim_registrant (info : Value) : Value :=
  match info with
  | .map m =>
    let n := (lookupKey m "name").getD .null
    if truthy n then n
    else
      let o := (lookupKey m "organization").getD .null
      if truthy o then o else .null
  | .str s => .str s
  | _ => .null

/-- The claim C5 registrant rule as amended: when `name` is falsy or
absent the raw `organization` value is stored as is — even a falsy or
non-string one — and the result is absent only when `organization` is
itself missing or null. -/
def amended_registrant (info : Value) : Value :=
  match info with
  | .map m =>
    let n := (lookupKey m "name").getD .null
    if truthy n then n else (lookupKey m "organization").getD .null
  | .str s => .str s
  | _ => .null

lemma isNull_iff (v : Value) : isNull v = true ↔ v = Value.null := by
  cases v <;> simp [isNull]

lemma isNull_false_iff (v : Value) : isNull v = false ↔ v ≠ Value.null := by
  cases v <;> simp [isNull]

/-- claim C2: for every tree whose current node is a Map containing the
target key directly, the Key Finder returns that key's value immediately
(whatever it is, including Null), without descending into sibling values
or into the matched value itself: the matched value is returned as-is. -/
theorem C2_direct_hit_short_circuits (m : List (String × Value)) (k : String) (v : Value)
    (h : lookupKey m k = some v) :
    find_key_recursively (Value.map m) k = v := by
  simp [find_key_recursively, h]

/-- Witness for claim C2 at a concrete input: the dict binds the key
directly to Null while a sibling holds a deeper non-null match, and the
finder still returns the direct (Null) value. -/
theorem C2_witness :
    lookupKey [("k", Value.null), ("a", Value.map [("k", Value.str "x")])] "k"
      = some Value.null ∧
    find_key_recursively
      (Value.map [("k", Value.null), ("a", Value.map [("k", Value.str "x")])]) "k"
      = Value.null :=
  ⟨rfl, C2_direct_hit_short_circuits _ "k" _ rfl⟩

/-- claim C9: for each of the eight simple fields the normaliser is the
identity — the record stores exactly the value the alias resolver
produced, for every tree, whatever shape that value has. -/
theorem C9_simple_fields_identity (t : Value) :
    lookupKey (parse_whois_json t) "createdDate"
      = some (get_value t ["creation_date", "creationDate", "created_date", "created"]) ∧
    lookupKey (parse_whois_json t) "updatedDate"
      = some (get_value t ["updated_date", "updatedDate", "last_updated", "updated"]) ∧
    lookupKey (parse_whois_json t) "expiresDate"
      = some (get_value t
          ["expiration_date", "expirationDate", "expires_date", "expires", "expiry_date"]) ∧
    lookupKey (parse_whois_json t) "registrarName"
      = some (get_value t ["registrar", "registrar_name", "registrarName"]) ∧
    lookupKey (parse_whois_json t) "whoisServer"
      = some (get_value t ["whois_server", "whoisServer"]) ∧
    lookupKey (parse_whois_json t) "registrarIANAID"
      = some (get_value t ["registrar_iana_id", "registrarIANAID", "ianaid"]) ∧
    lookupKey (parse_whois_json t) "country"
      = some (get_value t ["registrant_country", "country"]) ∧
    lookupKey (parse_whois_json t) "countryCode"
      = some (get_value t ["registrant_country_code", "country_code", "countryCode"]) :=
  ⟨rfl, rfl, rfl, rfl, rfl, rfl, rfl, rfl⟩

/-- claim C10: for every input tree the assembled record has exactly the
ten fixed keys, in the dict's insertion order, and on a document where
nothing matches every one of them carries the absent marker. -/
theorem C10_fixed_keys :
    (∀ t : Value, (parse_whois_json t).map Prod.fst =
      ["createdDate", "updatedDate", "expiresDate", "registrarName", "whoisServer",
       "registrant", "country", "countryCode", "registrarIANAID", "nameservers"]) ∧
    parse_whois_json (Value.map []) =
      [("createdDate", Value.null), ("updatedDate", Value.null), ("expiresDate", Value.null),
       ("registrarName", Value.null), ("whoisServer", Value.null), ("registrant", Value.null),
       ("country", Value.null), ("countryCode", Value.null), ("registrarIANAID", Value.null),
       ("nameservers", Value.null)] :=
  ⟨fun _ => rfl, rfl⟩

/-- The nameserver alias list of src/parser.py line 87. -/
def ns_aliases : List String :=
  ["name_servers", "nameservers", "nserver", "nameServers", "nameserver_info"]

/-- claim C7: the nameservers field depends only on the value resolved
through the nameserver alias list; any `hostNames` binding that does not
sit directly inside that resolved value — in particular a top-level
`hostNames` key — can never influence nameserver resolution. -/
theorem C7_hostNames_only_inside_resolved (t1 t2 : Value)
    (h : get_value t1 ns_aliases = get_value t2 ns_aliases) :
    lookupKey (parse_whois_json t1) "nameservers"
      = lookupKey (parse_whois_json t2) "nameservers" := by
  have e1 : lookupKey (parse_whois_json t1) "nameservers"
      = some (normalize_nameservers (get_value t1 ns_aliases)) := rfl
  have e2 : lookupKey (parse_whois_json t2) "nameservers"
      = some (normalize_nameservers (get_value t2 ns_aliases)) := rfl
  rw [e1, e2, h]

/-- Witness for claim C7: a document whose only content is a top-level
`hostNames` list resolves the nameservers field exactly as the empty
document does — the field stays absent. -/
theorem C7_witness :
    lookupKey (parse_whois_json (Value.map [("hostNames", Value.list [Value.str "NS1.X"])]))
        "nameservers"
      = lookupKey (parse_whois_json (Value.map [])) "nameservers" ∧
    lookupKey (parse_whois_json (Value.map [("hostNames", Value.list [Value.str "NS1.X"])]))
        "nameservers" = some Value.null :=
  ⟨C7_hostNames_only_inside_resolved _ _ rfl, rfl⟩

/-- The end-to-end sample document of claim C8. -/
def googleDoc : Value :=
  .map [("registrar", .str "MarkMonitor Inc."),
        ("nameserver_info", .map [("hostNames",
          .list [.str "NS1.GOOGLE.COM", .str "NS2.GOOGLE.COM"])]),
        ("registrant", .map [("organization", .str "Google LLC")])]

/-- claim C8: on the sample document the assembled record has exactly
registrarName, nameservers (lowercased and joined) and registrant set,
and every other field absent. -/
theorem C8_end_to_end :
    parse_whois_json googleDoc =
      [("createdDate", Value.null), ("updatedDate", Value.null), ("expiresDate", Value.null),
       ("registrarName", Value.str "MarkMonitor Inc."), ("whoisServer", Value.null),
       ("registrant", Value.str "Google LLC"), ("country", Value.null),
       ("countryCode", Value.null), ("registrarIANAID", Value.null),
       ("nameservers", Value.str "ns1.google.com, ns2.google.com")] := by
  decide

lemma firstNonNull_append (a b : List Value) :
    firstNonNull (a ++ b) =
      if isNull (firstNonNull a) then firstNonNull b else firstNonNull a := by
  induction a with
  | nil => simp [firstNonNull, isNull]
  | cons v vs ih =>
    by_cases h : isNull v
    · simp [firstNonNull, h, ih]
    · simp [firstNonNull, h]

mutual
theorem find_eq_firstNonNull : (t : Value) → (k : String) →
    find_key_recursively t k = firstNonNull (occs t k)
  | .null, _ => rfl
  | .str _, _ => rfl
  | .map m, k => by
    cases h : lookupKey m k with
    | some v =>
      simp only [find_key_recursively, occs, h]
      cases v <;> rfl
    | none =>
      simp only [find_key_recursively, occs, h]
      exact findInEntries_eq_firstNonNull m k
  | .list l, k => findInItems_eq_firstNonNull l k
theorem findInEntries_eq_firstNonNull : (m : List (String × Value)) → (k : String) →
    findInEntries m k = firstNonNull (occsEntries m k)
  | [], _ => rfl
  | (s, v) :: rest, k => by
    have h1 := find_eq_firstNonNull v k
    have h2 := findInEntries_eq_firstNonNull rest k
    simp only [findInEntries, occsEntries, firstNonNull_append, h1, h2]
theorem findInItems_eq_firstNonNull : (l : List Value) → (k : String) →
    findInItems l k = firstNonNull (occsItems l k)
  | [], _ => rfl
  | v :: rest, k => by
    have h1 := find_eq_firstNonNull v k
    have h2 := findInItems_eq_firstNonNull rest k
    simp only [findInItems, occsItems, firstNonNull_append, h1, h2]
end

/-- Tree of claim C1's tie-break sentence: a match nested deeper under
the first binding, against a match sitting directly at the root but
later in insertion order. -/
def t_C1 : Value := .map [("a", .map [("k", .str "deep")]), ("k", .str "shallow")]

/-- claim C1 is false as stated: in `t_C1` the occurrence of `"k"` under
the earlier sibling `"a"` comes first in the pre-order, depth-first,
insertion-order traversal the claim describes, yet the code returns the
shallower, later direct binding, because `_find_key_recursively` checks
`target_key in data` on the whole dict before descending into any value. -/
theorem C1_counterexample :
    spec_first_occurrence t_C1 "k" = some (Value.str "deep") ∧
    find_key_recursively t_C1 "k" = Value.str "shallow" ∧
    Value.str "deep" ≠ Value.str "shallow" := by
  refine ⟨rfl, rfl, ?_⟩
  decide

/-- claim C1 as amended: the Key Finder returns the first non-Null entry
of the pruned candidate sequence — the pre-order, depth-first,
insertion-order traversal in which a direct binding of the key at a Map
is visited before (and instead of) everything inside that Map, even when
its value is Null — and Null when that sequence has no non-Null entry
(in particular whenever the key occurs nowhere). -/
theorem C1_amended (t : Value) (k : String) :
    find_key_recursively t k = firstNonNull (occs t k) :=
  find_eq_firstNonNull t k

/-- Tree with alias `"a"` present but bound to Null, and alias `"b"`
bound to a string. -/
def t_C3a : Value := .map [("a", Value.null), ("b", .str "w")]

/-- Tree whose only binding is alias `"a"` bound to Null. -/
def t_C3b : Value := .map [("a", Value.null)]

/-- claim C3 is false as stated: in `t_C3a` the alias `"a"` exists in the
tree, yet the resolver returns the Key Finder's result for `"b"`, not the
one for `"a"` — a key bound to Null is indistinguishable from a missing
key; and in `t_C3b` the resolver returns absent although alias `"a"`
does match somewhere in the tree, refuting "absent if and only if no
alias matches anywhere". -/
theorem C3_counterexample :
    keyOccurs "a" t_C3a = true ∧ keyOccurs "b" t_C3a = true ∧
    get_value t_C3a ["a", "b"] = Value.str "w" ∧
    find_key_recursively t_C3a "a" = Value.null ∧
    Value.str "w" ≠ Value.null ∧
    keyOccurs "a" t_C3b = true ∧
    get_value t_C3b ["a", "b"] = Value.null := by
  refine ⟨rfl, rfl, rfl, rfl, ?_, rfl, rfl⟩
  decide

/-- claim C3 as amended: the resolver tries the aliases in order through
the Key Finder and returns the first non-Null result, and it returns
absent exactly when the Key Finder comes back Null for every alias — a
key that occurs only with a Null value (or whose first pruned occurrence
is Null) counts as missing. -/
theorem C3_amended (t : Value) (ks : List String) :
    get_value t ks = firstNonNull (ks.map (find_key_recursively t)) ∧
    (get_value t ks = Value.null ↔ ∀ k ∈ ks, find_key_recursively t k = Value.null) := by
  induction ks with
  | nil => simp [get_value, firstNonNull]
  | cons k ks ih =>
    by_cases h : isNull (find_key_recursively t k)
    · have hk : find_key_recursively t k = Value.null := (isNull_iff _).mp h
      constructor
      · simp [get_value, firstNonNull, h, List.map_cons, ih.1]
      · have hstep : get_value t (k :: ks) = get_value t ks := by
          simp [get_value, h]
        rw [hstep, ih.2]
        simp [List.forall_mem_cons, hk]
    · have hk : find_key_recursively t k ≠ Value.null := by
        intro hc
        rw [hc] at h
        exact h rfl
      constructor
      · simp [get_value, firstNonNull, h, List.map_cons]
      · simp [get_value, h, hk]

lemma clean_item_eq_amended (item : Value) : clean_item item = amended_clean item := by
  cases item with
  | null => rfl
  | str s =>
    by_cases hs : s = ""
    · subst hs
      rfl
    · simp [clean_item, amended_clean, truthy, beq_iff_eq, hs]
  | list l =>
    cases l with
    | nil => rfl
    | cons x xs => rfl
  | map m =>
    cases m with
    | nil => rfl
    | cons p rest => rfl

lemma items_eq_claim_worklist (raw : Value) : items_to_process raw = claim_worklist raw := by
  cases raw with
  | null => rfl
  | str s => rfl
  | list l => rfl
  | map m =>
    cases h : lookupKey m "hostNames" with
    | none => simp [items_to_process, claim_worklist, h, truthy]
    | some hv =>
      cases hv with
      | null => simp [items_to_process, claim_worklist, h, truthy]
      | str s => simp [items_to_process, claim_worklist, h]
      | list l =>
        cases l with
        | nil => simp [items_to_process, claim_worklist, h, truthy, List.isEmpty]
        | cons x xs => simp [items_to_process, claim_worklist, h, truthy, List.isEmpty]
      | map mm => simp [items_to_process, claim_worklist, h]

lemma nameserver_list_eq_amended (items : List Value) :
    nameserver_list items = items.filterMap amended_clean := by
  unfold nameserver_list
  exact List.filterMap_congr (fun a _ => clean_item_eq_amended a)

/-- The worklist of a falsy resolved value cleans to nothing, so the
source's truthiness guard on `raw_nameservers` is invisible in the
result. -/
lemma cleaned_empty_of_not_truthy (raw : Value) (h : truthy raw = false) :
    (claim_worklist raw).filterMap amended_clean = [] := by
  cases raw with
  | null => rfl
  | str s =>
    have hs : s = "" := by
      simpa [truthy, beq_iff_eq] using h
    subst hs
    rfl
  | list l =>
    cases l with
    | nil => rfl
    | cons x xs => simp [truthy, List.isEmpty] at h
  | map m =>
    cases m with
    | nil => rfl
    | cons p rest => simp [truthy, List.isEmpty] at h

/-- The input of claim C4's divergence: a whitespace-only candidate next
to a real hostname. -/
def raw_C4 : Value := .list [.str " ", .str "a"]

/-- claim C4 is false as stated: on `raw_C4` the claim's pipeline keeps
the empty string that lowercasing-and-trimming `" "` produces, so its
dedup output `["", "a"]` is non-empty and joins to `", a"`, while the
code skips nothing at worklist time (`" "` is truthy) but drops the empty
string in its dedup filter and produces `"a"`. -/
theorem C4_counterexample :
    claim_ns raw_C4 = Value.str ", a" ∧
    normalize_nameservers raw_C4 = Value.str "a" ∧
    Value.str ", a" ≠ Value.str "a" := by
  refine ⟨rfl, rfl, ?_⟩
  decide

/-- claim C4 as amended: the worklist is built as the claim says, but
empty-string candidates are skipped, deduplication also drops empty
strings, and the field is absent exactly when the list built BEFORE
deduplication is empty — when candidates survive cleaning but all vanish
in deduplication the field is the empty string, not absent.  The claim's
dedup example still holds: `["NS1.X", "ns1.x", "NS2.X"]` yields
`"ns1.x, ns2.x"`. -/
theorem C4_amended :
    (∀ raw : Value, normalize_nameservers raw = amended_ns raw) ∧
    normalize_nameservers (.list [.str "NS1.X", .str "ns1.x", .str "NS2.X"])
      = Value.str "ns1.x, ns2.x" := by
  constructor
  · intro raw
    unfold normalize_nameservers amended_ns
    cases htr : truthy raw with
    | false =>
      rw [cleaned_empty_of_not_truthy raw htr]
      simp
    | true =>
      rw [nameserver_list_eq_amended, items_eq_claim_worklist]
      simp
  · rfl

lemma registrant_from_eq_amended (info : Value) :
    registrant_from info = amended_registrant info := by
  cases info <;> rfl

/-- The registrant value of claim C5's divergence: a dict whose
`organization` is the empty string. -/
def v_C5 : Value := .map [("organization", .str "")]

/-- A document resolving the registrant alias to `v_C5`. -/
def t_C5 : Value := .map [("registrant", v_C5)]

/-- claim C5 is false as stated: with `{"organization": ""}` neither
`name` nor `organization` yields a usable (truthy) value, so the claim
requires an absent registrant, but `get("name") or get("organization")`
evaluates to the raw falsy `organization` value and the record stores the
present empty string. -/
theorem C5_counterexample :
    claim_registrant v_C5 = Value.null ∧
    lookupKey (parse_whois_json t_C5) "registrant" = some (Value.str "") ∧
    Value.str "" ≠ Value.null := by
  refine ⟨rfl, rfl, ?_⟩
  decide

/-- claim C5 as amended: for a Map the result is the `name` value when it
is truthy, and otherwise the raw `organization` value stored as-is — even
a falsy or non-string one — absent only when `organization` is itself
missing or Null; a Str is used directly; any other shape is absent. -/
theorem C5_amended (t : Value) :
    lookupKey (parse_whois_json t) "registrant"
      = some (amended_registrant
          (get_value t ["registrant", "registrant_name", "registrantName"])) := by
  have h : lookupKey (parse_whois_json t) "registrant"
      = some (registrant_from
          (get_value t ["registrant", "registrant_name", "registrantName"])) := rfl
  rw [h, registrant_from_eq_amended]

lemma lowerChar_toNat_of_upper (c : Char) (h : 65 ≤ c.toNat ∧ c.toNat ≤ 90) :
    (lowerChar c).toNat = c.toNat + 32 := by
  have hv : (c.toNat + 32).isValidChar := by
    left
    omega
  unfold lowerChar
  rw [if_pos h, Char.ofNat, dif_pos hv]
  rfl

lemma lowerChar_idem (c : Char) : lowerChar (lowerChar c) = lowerChar c := by
  by_cases h : 65 ≤ c.toNat ∧ c.toNat ≤ 90
  · have ht := lowerChar_toNat_of_upper c h
    conv_lhs => rw [lowerChar]
    rw [if_neg]
    rw [ht]
    omega
  · have he : lowerChar c = c := by
      unfold lowerChar
      rw [if_neg h]
    rw [he, he]

lemma isSpaceChar_lowerChar (c : Char) : isSpaceChar (lowerChar c) = isSpaceChar c := by
  by_cases h : 65 ≤ c.toNat ∧ c.toNat ≤ 90
  · have ht := lowerChar_toNat_of_upper c h
    have h1 : isSpaceChar (lowerChar c) = false := by
      simp only [isSpaceChar, ht, Bool.or_eq_false_iff, decide_eq_false_iff_not]
      omega
    have h2 : isSpaceChar c = false := by
      simp only [isSpaceChar, Bool.or_eq_false_iff, decide_eq_false_iff_not]
      omega
    rw [h1, h2]
  · have he : lowerChar c = c := by
      unfold lowerChar
      rw [if_neg h]
    rw [he]

lemma map_dropWhile_comm (f : Char → Char) (p : Char → Bool)
    (hpf : ∀ c, p (f c) = p c) (l : List Char) :
    (l.map f).dropWhile p = (l.dropWhile p).map f := by
  induction l with
  | nil => rfl
  | cons c cs ih =>
    cases hc : p c with
    | true => simp [List.dropWhile_cons, hpf c, hc, ih]
    | false => simp [List.dropWhile_cons, hpf c, hc]

lemma stripData_map_lower (l : List Char) :
    stripData (l.map lowerChar) = (stripData l).map lowerChar := by
  unfold stripData
  simp only [map_dropWhile_comm lowerChar isSpaceChar isSpaceChar_lowerChar,
    ← List.map_reverse]

lemma dropWhile_head_false (p : Char → Bool) :
    ∀ (l : List Char) (c : Char) (w : List Char), l.dropWhile p = c :: w → p c = false := by
  intro l
  induction l with
  | nil => intro c w h; simp at h
  | cons d ds ih =>
    intro c w h
    cases hd : p d with
    | true =>
      rw [List.dropWhile_cons, if_pos (by rw [hd])] at h
      exact ih c w h
    | false =>
      rw [List.dropWhile_cons, if_neg (by rw [hd]; exact Bool.false_ne_true)] at h
      injection h with h1 h2
      rw [← h1]
      exact hd

lemma dropWhile_self_of_head (p : Char → Bool) (l : List Char)
    (h : ∀ c w, l = c :: w → p c = false) : l.dropWhile p = l := by
  cases l with
  | nil => rfl
  | cons c cs =>
    rw [List.dropWhile_cons, if_neg]
    rw [h c cs rfl]
    exact Bool.false_ne_true

lemma dropWhile_idem (p : Char → Bool) (l : List Char) :
    (l.dropWhile p).dropWhile p = l.dropWhile p :=
  dropWhile_self_of_head p _ (fun c w hc => dropWhile_head_false p l c w hc)

lemma getLast?_dropWhile (p : Char → Bool) (l : List Char) (h : l.dropWhile p ≠ []) :
    (l.dropWhile p).getLast? = l.getLast? := by
  induction l with
  | nil => simp at h
  | cons c cs ih =>
    by_cases hp : p c
    · rw [List.dropWhile_cons, if_pos hp] at h ⊢
      rw [ih h, List.getLast?_cons]
      have hcs : cs ≠ [] := by
        intro hn
        rw [hn] at h
        simp at h
      cases cs with
      | nil => exact absurd rfl hcs
      | cons d ds => simp [List.getLast?_cons]
    · rw [List.dropWhile_cons, if_neg hp]

lemma head?_fail_of_dropWhile (p : Char → Bool) (l : List Char) :
    ∀ c, (l.dropWhile p).head? = some c → p c = false := by
  intro c h
  cases he : l.dropWhile p with
  | nil =>
    rw [he] at h
    simp at h
  | cons d ds =>
    rw [he] at h
    simp [List.head?_cons] at h
    rw [← h]
    exact dropWhile_head_false p l d ds he

lemma back_strip_fixed (p : Char → Bool) (a : List Char)
    (hhead : ∀ c, a.head? = some c → p c = false) :
    ((a.reverse.dropWhile p).reverse).dropWhile p = (a.reverse.dropWhile p).reverse := by
  apply dropWhile_self_of_head
  intro c w hc
  have h1 : (a.reverse.dropWhile p).reverse.head? = some c := by
    rw [hc]
    rfl
  rw [List.head?_reverse] at h1
  have hxne : a.reverse.dropWhile p ≠ [] := by
    intro hn
    rw [hn] at hc
    simp at hc
  rw [getLast?_dropWhile p a.reverse hxne, List.getLast?_reverse] at h1
  exact hhead c h1

lemma stripData_idem (l : List Char) : stripData (stripData l) = stripData l := by
  unfold stripData
  rw [back_strip_fixed isSpaceChar (l.dropWhile isSpaceChar)
    (head?_fail_of_dropWhile isSpaceChar l)]
  rw [List.reverse_reverse]
  rw [dropWhile_idem]

lemma map_lowerChar_idem (l : List Char) :
    (l.map lowerChar).map lowerChar = l.map lowerChar := by
  rw [List.map_map]
  exact List.map_congr_left (fun c _ => lowerChar_idem c)

lemma lower_strip_idem (s : String) : lower_strip (lower_strip s) = lower_strip s := by
  unfold lower_strip pyStrip pyLower
  have h1 : (String.mk (String.mk (stripData (s.data.map lowerChar))).data).data
      = stripData (s.data.map lowerChar) := rfl
  rw [h1]
  have h2 : (stripData (s.data.map lowerChar)).map lowerChar
      = stripData (s.data.map lowerChar) := by
    rw [← stripData_map_lower, map_lowerChar_idem]
  rw [h2, stripData_idem]

lemma splitTokenAux_append_free (xs : List Char) :
    ∀ (acc ys : List Char), (∀ c ∈ xs, isDelimChar c = false) →
      splitTokenAux (xs ++ ys) acc = splitTokenAux ys (xs.reverse ++ acc) := by
  induction xs with
  | nil => intro acc ys _; simp
  | cons c cs ih =>
    intro acc ys h
    have hc : isDelimChar c = false := h c (List.mem_cons_self c cs)
    have hcs : ∀ d ∈ cs, isDelimChar d = false := fun d hd => h d (List.mem_cons_of_mem c hd)
    rw [List.cons_append, splitTokenAux, if_neg (by rw [hc]; exact Bool.false_ne_true)]
    rw [ih (c :: acc) ys hcs]
    simp [List.reverse_cons, List.append_assoc]

lemma splitTokenAux_delim (c : Char) (cs acc : List Char) (h : isDelimChar c = true) :
    splitTokenAux (c :: cs) acc = String.mk acc.reverse :: splitRunAux cs := by
  rw [splitTokenAux, if_pos h]

lemma splitRunAux_delim (c : Char) (cs : List Char) (h : isDelimChar c = true) :
    splitRunAux (c :: cs) = splitRunAux cs := by
  rw [splitRunAux, if_pos h]

lemma splitRunAux_eq_token (c : Char) (cs : List Char) (h : isDelimChar c = false) :
    splitRunAux (c :: cs) = splitTokenAux (c :: cs) [] := by
  rw [splitRunAux, if_neg (by rw [h]; exact Bool.false_ne_true)]
  rw [splitTokenAux, if_neg (by rw [h]; exact Bool.false_ne_true)]

lemma join_comma_data_cons2 (x y : String) (rest : List String) :
    (join_comma (x :: y :: rest)).data
      = x.data ++ ',' :: ' ' :: (join_comma (y :: rest)).data := by
  have h : join_comma (x :: y :: rest) = x ++ ", " ++ join_comma (y :: rest) := rfl
  rw [h, String.data_append, String.data_append]
  simp

lemma join_comma_head_data (y : String) (rest : List String) :
    ∃ t, (join_comma (y :: rest)).data = y.data ++ t := by
  cases rest with
  | nil => exact ⟨[], by simp [join_comma]⟩
  | cons z zs => exact ⟨_, join_comma_data_cons2 y z zs⟩

lemma str_data_ne_of_ne (x : String) (h : x ≠ "") : x.data ≠ [] := by
  intro hd
  apply h
  have he : String.mk x.data = x := rfl
  rw [← he, hd]

lemma pySplit_join (L : List String) (hne : L ≠ [])
    (h : ∀ x ∈ L, x.data ≠ [] ∧ ∀ c ∈ x.data, isDelimChar c = false) :
    pySplit (join_comma L) = L := by
  induction L with
  | nil => exact absurd rfl hne
  | cons x rest ih =>
    have hx := h x (List.mem_cons_self x rest)
    cases rest with
    | nil =>
      unfold pySplit
      have h0 : (join_comma [x]).data = x.data ++ [] := by
        simp [join_comma]
      rw [h0, splitTokenAux_append_free x.data [] [] hx.2]
      simp [splitTokenAux]
    | cons y rest2 =>
      have hy := h y (List.mem_cons_of_mem x (List.mem_cons_self y rest2))
      unfold pySplit
      rw [join_comma_data_cons2 x y rest2]
      rw [splitTokenAux_append_free x.data [] (',' :: ' ' :: (join_comma (y :: rest2)).data) hx.2]
      rw [splitTokenAux_delim ',' _ _ (by decide)]
      rw [splitRunAux_delim ' ' _ (by decide)]
      obtain ⟨t, ht⟩ := join_comma_head_data y rest2
      obtain ⟨c, w, hcw⟩ : ∃ c w, y.data = c :: w := by
        cases hyd : y.data with
        | nil => exact absurd hyd hy.1
        | cons c w => exact ⟨c, w, rfl⟩
      have hcfree : isDelimChar c = false := hy.2 c (by rw [hcw]; exact List.mem_cons_self c w)
      have htail : (join_comma (y :: rest2)).data = c :: (w ++ t) := by
        rw [ht, hcw]
        rfl
      rw [htail, splitRunAux_eq_token c (w ++ t) hcfree, ← htail]
      have hrec : splitTokenAux (join_comma (y :: rest2)).data [] = y :: rest2 := by
        exact ih (fun hc => List.noConfusion hc)
          (fun z hz => h z (List.mem_cons_of_mem x hz))
      rw [hrec]
      simp

lemma mem_dedup_aux (l : List String) :
    ∀ (seen : List String) (x : String), x ∈ dedup_aux l seen → x ∈ l ∧ x ≠ "" := by
  induction l with
  | nil => intro seen x hx; simp [dedup_aux] at hx
  | cons y ys ih =>
    intro seen x hx
    rw [dedup_aux] at hx
    by_cases hc : y ≠ "" ∧ y ∉ seen
    · rw [if_pos hc] at hx
      rcases List.mem_cons.mp hx with he | hm
      · exact ⟨by rw [he]; exact List.mem_cons_self y ys, by rw [he]; exact hc.1⟩
      · have := ih (y :: seen) x hm
        exact ⟨List.mem_cons_of_mem y this.1, this.2⟩
    · rw [if_neg hc] at hx
      have := ih seen x hx
      exact ⟨List.mem_cons_of_mem y this.1, this.2⟩

lemma dedup_aux_props (l : List String) :
    ∀ seen, (dedup_aux l seen).Nodup ∧ ∀ x ∈ dedup_aux l seen, x ∉ seen := by
  induction l with
  | nil => intro seen; simp [dedup_aux]
  | cons y ys ih =>
    intro seen
    rw [dedup_aux]
    by_cases hc : y ≠ "" ∧ y ∉ seen
    · rw [if_pos hc]
      constructor
      · rw [List.nodup_cons]
        constructor
        · intro hmem
          exact ((ih (y :: seen)).2 y hmem) (List.mem_cons_self y seen)
        · exact (ih (y :: seen)).1
      · intro x hx
        rcases List.mem_cons.mp hx with he | hm
        · rw [he]; exact hc.2
        · have := (ih (y :: seen)).2 x hm
          intro hs
          exact this (List.mem_cons_of_mem y hs)
    · rw [if_neg hc]
      exact ih seen

lemma dedup_aux_fixed (l : List String) :
    ∀ seen, l.Nodup → (∀ x ∈ l, x ≠ "" ∧ x ∉ seen) → dedup_aux l seen = l := by
  induction l with
  | nil => intro seen _ _; rfl
  | cons y ys ih =>
    intro seen hnd h
    have hy := h y (List.mem_cons_self y ys)
    rw [dedup_aux, if_pos hy]
    have hnd2 := List.nodup_cons.mp hnd
    rw [ih (y :: seen) hnd2.2]
    intro x hx
    refine ⟨(h x (List.mem_cons_of_mem y hx)).1, ?_⟩
    intro hmem
    rcases List.mem_cons.mp hmem with he | hs
    · exact hnd2.1 (he ▸ hx)
    · exact (h x (List.mem_cons_of_mem y hx)).2 hs

lemma mem_nameserver_list_image (items : List Value) (x : String)
    (h : x ∈ nameserver_list items) : ∃ y, x = lower_strip y := by
  unfold nameserver_list at h
  rw [List.mem_filterMap] at h
  obtain ⟨a, _, ha⟩ := h
  cases a with
  | null => simp [clean_item, truthy] at ha
  | str s =>
    simp only [clean_item] at ha
    split at ha
    · injection ha with hx
      exact ⟨s, hx.symm⟩
    · exact absurd ha (by simp)
  | list l => simp [clean_item] at ha
  | map m =>
    simp only [clean_item] at ha
    split at ha
    · split at ha
      · split at ha
        · exact absurd ha (by simp)
        · injection ha with hx
          exact ⟨_, hx.symm⟩
      · exact absurd ha (by simp)
    · exact absurd ha (by simp)

lemma nameserver_list_fixed (L : List String)
    (h : ∀ x ∈ L, x ≠ "" ∧ lower_strip x = x) :
    nameserver_list (L.map Value.str) = L := by
  induction L with
  | nil => rfl
  | cons x xs ih =>
    have hx := h x (List.mem_cons_self x xs)
    have hclean : clean_item (Value.str x) = some x := by
      simp [clean_item, truthy, beq_iff_eq, hx.1, hx.2]
    unfold nameserver_list
    rw [List.map_cons, List.filterMap_cons, hclean]
    have := ih (fun z hz => h z (List.mem_cons_of_mem x hz))
    unfold nameserver_list at this
    rw [this]

/-- Nameserver input whose single hostname keeps an internal space after
trimming. -/
def v_C6 : Value := .list [.str "a b"]

/-- claim C6 is false as stated: normalising `["a b"]` produces the
joined string `"a b"`, whose single hostname contains a space; feeding
that string back through the Str branch re-splits it into two hostnames
`a` and `b`, a different set from `{"a b"}`. -/
theorem C6_counterexample :
    normalize_nameservers v_C6 = Value.str "a b" ∧
    hostnames_of v_C6 = ["a b"] ∧
    hostnames_of (Value.str "a b") = ["a", "b"] ∧
    "a b" ∉ (["a", "b"] : List String) := by
  refine ⟨rfl, rfl, rfl, ?_⟩
  decide

/-- claim C6 as amended: re-normalisation of the joined output string
reproduces the same hostname list (hence the same set), provided no
produced hostname contains a comma or whitespace character internally —
lowercasing and trimming already make every hostname a fixed point of the
cleaning step, so only embedded delimiters can break the round trip. -/
theorem C6_amended (v : Value) (s : String)
    (h : normalize_nameservers v = Value.str s)
    (hfree : ∀ x ∈ hostnames_of v, ∀ c ∈ x.data, isDelimChar c = false) :
    hostnames_of (Value.str s) = hostnames_of v := by
  unfold normalize_nameservers at h
  cases htr : truthy v with
  | false =>
    rw [htr] at h
    simp at h
  | true =>
    rw [htr] at h
    simp only [if_true] at h
    cases hemp : (nameserver_list (items_to_process v)).isEmpty with
    | true =>
      rw [hemp] at h
      exact absurd h (by simp)
    | false =>
      rw [hemp] at h
      simp only [Bool.false_eq_true, if_false] at h
      have hj : join_comma (unique_ns (nameserver_list (items_to_process v))) = s := by
        injection h
      have hH : hostnames_of v = unique_ns (nameserver_list (items_to_process v)) := by
        unfold hostnames_of
        rw [htr]
        simp
      have hmem : ∀ x ∈ unique_ns (nameserver_list (items_to_process v)),
          x ∈ nameserver_list (items_to_process v) ∧ x ≠ "" :=
        fun x hx => mem_dedup_aux _ [] x hx
      have himg : ∀ x ∈ unique_ns (nameserver_list (items_to_process v)),
          lower_strip x = x := by
        intro x hx
        obtain ⟨y, hy⟩ := mem_nameserver_list_image _ x (hmem x hx).1
        rw [hy, lower_strip_idem]
      by_cases hL : unique_ns (nameserver_list (items_to_process v)) = []
      · rw [hL] at hj
        have hs0 : s = "" := hj.symm
        rw [hH, hL, hs0]
        rfl
      · have hdataL : ∀ x ∈ unique_ns (nameserver_list (items_to_process v)),
            x.data ≠ [] ∧ ∀ c ∈ x.data, isDelimChar c = false := by
          intro x hx
          refine ⟨str_data_ne_of_ne x (hmem x hx).2, ?_⟩
          rw [hH] at hfree
          exact hfree x hx
        have hsplit : pySplit s = unique_ns (nameserver_list (items_to_process v)) := by
          rw [← hj]
          exact pySplit_join _ hL hdataL
        have hsne : s ≠ "" := by
          cases hLc : unique_ns (nameserver_list (items_to_process v)) with
          | nil => exact absurd hLc hL
          | cons x xs =>
            obtain ⟨t, ht⟩ := join_comma_head_data x xs
            intro hse
            have hd : (join_comma (x :: xs)).data = s.data := by
              rw [← hLc, hj]
            rw [ht, hse] at hd
            have hxne : x.data ≠ [] := by
              have := hdataL x (by rw [hLc]; exact List.mem_cons_self x xs)
              exact this.1
            rcases List.append_eq_nil.mp hd with ⟨h1, _⟩
            exact hxne h1
        have htr2 : truthy (Value.str s) = true := by
          simp [truthy, beq_iff_eq, hsne]
        rw [hH]
        unfold hostnames_of
        rw [htr2]
        simp only [if_true]
        have hitems : items_to_process (Value.str s) = (pySplit s).map Value.str := rfl
        rw [hitems, hsplit]
        rw [nameserver_list_fixed _ (fun x hx => ⟨(hmem x hx).2, himg x hx⟩)]
        exact dedup_aux_fixed _ [] (dedup_aux_props _ []).1
          (fun x hx => ⟨(hmem x hx).2, List.not_mem_nil x⟩)

/-- Witness for claim C6 at a concrete input: `["NS1.X"]` normalises to
`"ns1.x"`, whose hostnames are delimiter-free, and re-normalising the
string `"ns1.x"` reproduces the same hostname list. -/
theorem C6_witness :
    normalize_nameservers (Value.list [Value.str "NS1.X"]) = Value.str "ns1.x" ∧
    hostnames_of (Value.str "ns1.x") = hostnames_of (Value.list [Value.str "NS1.X"]) :=
  ⟨rfl, C6_amended (Value.list [Value.str "NS1.X"]) "ns1.x" rfl (by decide)⟩
